import Mathlib

/-!
Verification of the stock-analysis signal and backtest engine.

Shallow embedding conventions:
* A pandas value Series is `List (Option ℚ)` in positional (date-ordered) form;
  `none` stands for an undefined value (NaN).  Every comparison against an
  undefined value is false, mirroring IEEE NaN comparison semantics.
* Boolean signal Series are `List Bool`.
* Machine floats are modelled as exact rationals; rational division is
  Lean's total division (`x / 0 = 0`); wherever a zero denominator could
  change a branch outcome the embedding guards it explicitly.
* The helper module `func_TDX` (SMA, CROSS, REF, HHV, LLV) and the `talib`
  indicator library are not part of the provided sources; their definitions
  below are modelled from the specification and marked as such.
-/

namespace StockSpec

/-- Series of optional rational values (NaN-aware pandas column). -/
abbrev OSeries := List (Option ℚ)

/-- Lift a total value series to an optional series. -/
def osome (s : List ℚ) : OSeries := s.map some

/-- Arithmetic mean of a list of rationals (0 for the empty list). -/
def listMean (l : List ℚ) : ℚ := l.sum / l.length

/-- Trailing window of the last `w` entries of `s` ending at index `i`. -/
def winEnd (s : List ℚ) (i w : ℕ) : List ℚ := (s.take (i+1)).drop (i+1-w)

/-- Modelled from the spec: `func_TDX.SMA` (missing from the sources).
Simple moving average with window `w`: arithmetic mean of the trailing `w`
values, undefined for the first `w - 1` indices. -/
def SMA (s : List ℚ) (w : ℕ) : OSeries :=
  (List.range s.length).map fun i =>
    if w ≤ i + 1 then some (listMean (winEnd s i w)) else none

/-- Modelled from the spec: `func_TDX.REF` (missing from the sources).
Value `k` bars earlier; undefined when no predecessor exists. -/
def REF (s : OSeries) (k : ℕ) : OSeries :=
  (List.range s.length).map fun i =>
    if k ≤ i then s.getD (i - k) none else none

/-- NaN-aware strict greater-than: false when either side is undefined. -/
def oGT : Option ℚ → Option ℚ → Bool
  | some a, some b => decide (b < a)
  | _, _ => false

/-- NaN-aware less-or-equal: false when either side is undefined. -/
def oLE : Option ℚ → Option ℚ → Bool
  | some a, some b => decide (a ≤ b)
  | _, _ => false

/-- NaN-aware strict less-than: false when either side is undefined. -/
def oLT : Option ℚ → Option ℚ → Bool
  | some a, some b => decide (a < b)
  | _, _ => false

/-- Modelled from the spec: `func_TDX.CROSS` (missing from the sources).
True at `t` iff `a[t] > b[t]` and `a[t-1] ≤ b[t-1]`; an undefined
predecessor (in particular at `t = 0`) yields false. -/
def CROSS (a b : OSeries) : List Bool :=
  (List.range a.length).map fun i =>
    if i = 0 then false
    else oGT (a.getD i none) (b.getD i none) && oLE (a.getD (i-1) none) (b.getD (i-1) none)

/-- Modelled from the spec: `func_TDX.HHV` (missing from the sources).
Trailing highest value over window `w`, undefined for the first `w - 1` indices. -/
def HHV (s : List ℚ) (w : ℕ) : OSeries :=
  (List.range s.length).map fun i =>
    if w ≤ i + 1 then some ((winEnd s i w).foldl max ((winEnd s i w).headD 0)) else none

/-- Modelled from the spec: `func_TDX.LLV` (missing from the sources).
Trailing lowest value over window `w`, undefined for the first `w - 1` indices. -/
def LLV (s : List ℚ) (w : ℕ) : OSeries :=
  (List.range s.length).map fun i =>
    if w ≤ i + 1 then some ((winEnd s i w).foldl min ((winEnd s i w).headD 0)) else none

/-- Recursive exponential-smoothing worker: each new value is
`prev + a * (x - prev)`. -/
def emaGo (a : ℚ) : ℚ → List ℚ → List ℚ
  | _, [] => []
  | prev, x :: xs => (prev + a * (x - prev)) :: emaGo a (prev + a * (x - prev)) xs

/-- Modelled from the spec: exponential moving average used by `talib.MACD`
(the library is external to the sources).  Seed is the first value, smoothing
factor `2 / (span + 1)`. -/
def EMA (s : List ℚ) (span : ℕ) : List ℚ :=
  match s with
  | [] => []
  | h :: t => h :: emaGo (2 / ((span : ℚ) + 1)) h t

/-- Modelled from the spec: MACD fast line `DIFF = EMA(12) - EMA(26)`. -/
def MACD_DIFF (c : List ℚ) : List ℚ :=
  List.zipWith (· - ·) (EMA c 12) (EMA c 26)

/-- Modelled from the spec: MACD signal line `DEA = EMA(DIFF, 9)`. -/
def MACD_DEA (c : List ℚ) : List ℚ := EMA (MACD_DIFF c) 9

/-- Modelled from the spec: MACD histogram `2 * (DIFF - DEA)`. -/
def MACD_HIST (c : List ℚ) : List ℚ :=
  List.zipWith (fun d s => 2 * (d - s)) (MACD_DIFF c) (MACD_DEA c)

/-- Modelled from the spec: `talib.RSI` (the library is external to the
sources).  Average gain over average loss as trailing means over `period`
deltas; undefined while fewer than `period` deltas exist or when the average
loss is zero. -/
def RSI (c : List ℚ) (period : ℕ) : OSeries :=
  (List.range c.length).map fun i =>
    if period ≤ i then
      let ds := (List.range period).map fun k => c.getD (i - k) 0 - c.getD (i - k - 1) 0
      let gain := listMean (ds.map fun d => max d 0)
      let loss := listMean (ds.map fun d => max (-d) 0)
      if loss = 0 then none else some (100 - 100 / (1 + gain / loss))
    else none

/-- Regime classifier from `CeLue.策略HS300`: favorable iff the moving
averages are bullishly ordered (`MA5 > MA20 > MA60`), the MACD fast line is
above zero, and volume is at least 0.8 of its 5-day average. -/
def «策略HS300» (closes vols : List ℚ) : List Bool :=
  let ma5 := SMA closes 5
  let ma20 := SMA closes 20
  let ma60 := SMA closes 60
  let diff := osome (MACD_DIFF closes)
  let volma5 := SMA vols 5
  (List.range closes.length).map fun i =>
    (oGT (ma5.getD i none) (ma20.getD i none) && oGT (ma20.getD i none) (ma60.getD i none))
      && oGT (diff.getD i none) (some 0)
      && oGT (some (vols.getD i 0)) ((volma5.getD i none).map (· * (8/10)))

/-- Screening filter from `CeLue.策略1`, full-history mode: price above 3,
turnover above 30,000,000, price below 300, and not a limit-up bar (close
below previous close times 1.095, or 1.195 on the 688/300 boards). -/
def «策略1» (closes amounts : List ℚ) (growthBoard : Bool) : List Bool :=
  let prevC := REF (osome closes) 1
  let mult : ℚ := if growthBoard then 1195/1000 else 1095/1000
  (List.range closes.length).map fun i =>
    decide (3 < closes.getD i 0) && decide (30000000 < amounts.getD i 0)
      && decide (closes.getD i 0 < 300)
      && oLT (some (closes.getD i 0)) ((prevC.getD i none).map (· * mult))

/-- Screening filter from `CeLue.策略1`, fast mode: false when fewer than 20
bars exist, otherwise the same four conditions evaluated at the last bar. -/
def «策略1_fast» (closes amounts : List ℚ) (growthBoard : Bool) : Bool :=
  if closes.length < 20 then false
  else
    let c := closes.getLastD 0
    let a := amounts.getLastD 0
    let prev := closes.getD (closes.length - 2) 0
    let mult : ℚ := if growthBoard then 1195/1000 else 1095/1000
    decide (3 < c) && decide (30000000 < a) && decide (c < 300) && decide (c < prev * mult)

/-- Buy-signal evaluator from `CeLue.策略2`: with fewer than 60 bars the
result is an all-false series of the input's length; otherwise the
conjunction of the nine conditions of the source (regime gate, bullish MA
ordering, MACD cross or strength, breakout over MA20 or the prior 20-day
high, volume surge, RSI not overbought, bounded distance above MA60,
distance above the limit-down price, and the screening filter).  The regime
series is re-aligned positionally with false as the fill value. -/
def «策略2» (closes highs lows vols amounts : List ℚ) (growthBoard : Bool)
    (hs300 : List Bool) : List Bool :=
  let n := closes.length
  if n < 60 then List.replicate n false
  else
    let ma5 := SMA closes 5
    let ma10 := SMA closes 10
    let ma20 := SMA closes 20
    let ma60 := SMA closes 60
    let diff := osome (MACD_DIFF closes)
    let dea := osome (MACD_DEA closes)
    let volma5 := SMA vols 5
    let rsi := RSI closes 14
    let hh20 := HHV highs 20
    let _ll20 := LLV lows 20
    let goldenCross := CROSS diff dea
    let crossMA20 := CROSS (osome closes) ma20
    let prevC := REF (osome closes) 1
    let prevMA20 := REF ma20 1
    let prevDiff := REF diff 1
    let prevHH := REF hh20 1
    let limitDownMult : ℚ := if growthBoard then 805/1000 else 905/1000
    let filt := «策略1» closes amounts growthBoard
    (List.range n).map fun i =>
      let c := closes.getD i 0
      hs300.getD i false
        && (oGT (ma5.getD i none) (ma10.getD i none)
              && oGT (ma10.getD i none) (ma20.getD i none)
              && oGT (ma20.getD i none) (ma60.getD i none))
        && (goldenCross.getD i false
              || (oGT (diff.getD i none) (some (-(1/10)))
                    && oGT (diff.getD i none) (prevDiff.getD i none)))
        && ((crossMA20.getD i false
              || (oGT (some c) (ma20.getD i none)
                    && oLE (prevC.getD i none) (prevMA20.getD i none)))
              || oGT (some c) (prevHH.getD i none))
        && oGT (some (vols.getD i 0)) ((volma5.getD i none).map (· * (13/10)))
        && (match rsi.getD i none with | none => true | some r => decide (r < 80))
        && oLT (some c) ((ma60.getD i none).map (· * (135/100)))
        && oGT (some c) ((prevC.getD i none).map (fun p => p * limitDownMult * (102/100)))
        && filt.getD i false

/-- Sell condition 1 of `CeLue.卖策略`: fixed take-profit at +15%. -/
def takeProfitCond (cost price : ℚ) : Bool := decide (15/100 ≤ (price - cost) / cost)

/-- Sell condition 2 of `CeLue.卖策略`: fixed stop-loss at -8%. -/
def stopLossCond (cost price : ℚ) : Bool := decide ((price - cost) / cost ≤ -(8/100))

/-- Sell condition 3 of `CeLue.卖策略`: close below MA10. -/
def ma10BreakCond (ma10 : OSeries) (j : ℕ) (price : ℚ) : Bool :=
  oLT (some price) (ma10.getD j none)

/-- Sell condition 4 of `CeLue.卖策略`: MACD dead cross at bar `j`. -/
def deadCrossCond (deadCross : List Bool) (j : ℕ) : Bool := deadCross.getD j false

/-- Sell condition 5 of `CeLue.卖策略`: trailing stop, firing when the
drawdown from the running peak exceeds 12% while the unrealized return is
above 5%.  The drawdown is 0 while the peak has not exceeded the cost. -/
def trailingStopCond (cost price peak : ℚ) : Bool :=
  let dd := if cost < peak then (peak - price) / peak else 0
  decide (5/100 < (price - cost) / cost) && decide (12/100 < dd)

/-- Disjunction of the five sell conditions of `CeLue.卖策略` at bar `j`
with running peak `peak`. -/
def sellTriggerCond (closes : List ℚ) (ma10 : OSeries) (deadCross : List Bool)
    (cost : ℚ) (j : ℕ) (peak : ℚ) : Bool :=
  let price := closes.getD j 0
  takeProfitCond cost price || stopLossCond cost price
    || ma10BreakCond ma10 j price || deadCrossCond deadCross j
    || trailingStopCond cost price peak

/-- Forward sweep over the bars after an entry: update the running peak,
then stop at the first bar whose sell condition holds. -/
def firstTrigger (cond : ℕ → ℚ → Bool) (upd : ℕ → ℚ → ℚ) : ℚ → List ℕ → Option ℕ
  | _, [] => none
  | peak, j :: rest =>
    let p := upd j peak
    if cond j p then some j else firstTrigger cond upd p rest

/-- Mark, for each buy index, the bar chosen by `pick` (if any) as a sell. -/
def markSell (pick : ℕ → Option ℕ) (buyIdxs : List ℕ) (init : List Bool) : List Bool :=
  buyIdxs.foldl (fun sig b => match pick b with | some j => sig.set j true | none => sig) init

/-- Sell evaluator from `CeLue.卖策略`: all-false when no buy signal exists;
otherwise, for each buy index, sweep the strictly later bars tracking the
running peak of highs and mark the first bar at which any of the five sell
conditions holds. -/
def «卖策略» (closes highs : List ℚ) (buy : List Bool) : List Bool :=
  if ¬ buy.contains true then List.replicate buy.length false
  else
    let n := closes.length
    let ma10 := SMA closes 10
    let diff := osome (MACD_DIFF closes)
    let dea := osome (MACD_DEA closes)
    let deadCross := CROSS dea diff
    let pick : ℕ → Option ℕ := fun b =>
      firstTrigger (sellTriggerCond closes ma10 deadCross (closes.getD b 0))
        (fun j pk => max pk (highs.getD j 0)) (closes.getD b 0)
        ((List.range n).drop (b+1))
    markSell pick ((List.range buy.length).filter fun b => buy.getD b false)
      (List.replicate n false)

/-- Index of the latest buy at or before bar `i` (the forward-filled entry
date of `CeLue_Advanced.卖策略`). -/
def lastBuyAt (buy : List Bool) (i : ℕ) : Option ℕ :=
  ((List.range (i+1)).filter fun b => buy.getD b false).getLast?

/-- Fallback sell evaluator from `CeLue_Advanced.卖策略`: the entry price at
a bar is the close of the latest buy at or before it (forward fill); a sell
is marked, for each buy index, at the first strictly later bar where close
is below MA10, the gain exceeds 10%, or the loss exceeds 5%. -/
def «卖策略_Advanced» (closes : List ℚ) (buy : List Bool) : List Bool :=
  if ¬ buy.contains true then List.replicate buy.length false
  else
    let n := closes.length
    let ma10 := SMA closes 10
    let pnl : ℕ → Option ℚ := fun i =>
      (lastBuyAt buy i).map fun b => closes.getD i 0 / closes.getD b 0 - 1
    let cond : ℕ → Bool := fun i =>
      oLT (some (closes.getD i 0)) (ma10.getD i none)
        || oGT (pnl i) (some (1/10)) || oLT (pnl i) (some (-(5/100)))
    let pick : ℕ → Option ℕ := fun b =>
      ((List.range n).drop b).find? fun j => decide (j ≠ b) && cond j
    markSell pick (((List.range buy.length).filter fun b => buy.getD b false).reverse)
      (List.replicate n false)

/-- Sub-score 1 of `CeLue_improved.策略2_精选版`: the MA5/MA60 compression,
worth `20 - spread` when the percentage spread is below 15.  A zero or
undefined MA60, which makes the spread a NaN or infinity whose comparison
against 15 is false in the source, contributes 0. -/
def scoreMACompress (closes : List ℚ) : ℚ :=
  match (SMA closes 5).getLastD none, (SMA closes 60).getLastD none with
  | some m5, some m60 =>
      if m60 = 0 then 0
      else if (m5 - m60) / m60 * 100 < 15 then 20 - (m5 - m60) / m60 * 100 else 0
  | _, _ => 0

/-- Sub-score 2 of `CeLue_improved.策略2_精选版`: ten times the volume ratio
against the 5-day average volume (ratio 1 when the average is not positive),
capped at 20. -/
def scoreVolRatio (vols : List ℚ) : ℚ :=
  let ratio : ℚ :=
    match (SMA vols 5).getLastD none with
    | some v => if 0 < v then vols.getLastD 0 / v else 1
    | none => 1
  min 20 (ratio * 10)

/-- Sub-score 3 of `CeLue_improved.策略2_精选版`: one hundred times the
absolute MACD histogram value, capped at 20. -/
def scoreMACDHist (closes : List ℚ) : ℚ :=
  min 20 (|(MACD_HIST closes).getLastD 0| * 100)

/-- Sub-score 4 of `CeLue_improved.策略2_精选版`: the RSI band score (full
20 in [50, 70], 15 in [40, 50), 10 in (70, 80], otherwise 0; an undefined
RSI falls through every band). -/
def scoreRSIBand (closes : List ℚ) : ℚ :=
  match (RSI closes 14).getLastD none with
  | some r =>
      if 50 ≤ r ∧ r ≤ 70 then 20
      else if 40 ≤ r ∧ r < 50 then 15
      else if 70 < r ∧ r ≤ 80 then 10
      else 0
  | none => 0

/-- Sub-score 5 of `CeLue_improved.策略2_精选版`: position of the last close
within the trailing 20-bar low/high range (full 20 in [0.4, 0.7], 15 in
[0.2, 0.4), otherwise 0).  A degenerate range, which makes the position a
NaN or infinity whose band comparisons are all false in the source,
contributes 0. -/
def scorePricePos (closes highs lows : List ℚ) : ℚ :=
  let lastLows := lows.drop (lows.length - 20)
  let lastHighs := highs.drop (highs.length - 20)
  let lmin := lastLows.foldl min (lastLows.headD 0)
  let hmax := lastHighs.foldl max (lastHighs.headD 0)
  if hmax - lmin = 0 then 0
  else
    let pos := (closes.getLastD 0 - lmin) / (hmax - lmin)
    if 4/10 ≤ pos ∧ pos ≤ 7/10 then 20
    else if 2/10 ≤ pos ∧ pos < 4/10 then 15
    else 0

/-- Scoring module from `CeLue_improved.策略2_精选版`: `(false, 0)` when the
last bar carries no confirmed buy signal, otherwise `true` together with the
five-part composite score clamped to 100 from above. -/
def «策略2_精选版» (closes highs lows vols amounts : List ℚ) (growthBoard : Bool)
    (hs300 : List Bool) : Bool × ℚ :=
  let buySig := «策略2» closes highs lows vols amounts growthBoard hs300
  if ¬ buySig.getLastD false then (false, 0)
  else
    (true, min 100 (scoreMACompress closes + scoreVolRatio vols + scoreMACDHist closes
      + scoreRSIBand closes + scorePricePos closes highs lows))

/-! Backtest simulator, from `quick_backtest.SimpleBacktest` and its `main`
loop (`demo_backtest.SimpleBacktest` and `run_simple_backtest` are
structurally identical).  Instrument codes and dates are natural numbers;
per-instrument data is a partial map from code and date to a bar carrying
that date's close and the precomputed buy/sell signals. -/

/-- An open position: share count, entry price and entry date. -/
structure PosInfo where
  shares : ℤ
  cost : ℚ
  buyDate : ℕ
  deriving DecidableEq, Repr

/-- One ledger entry, mirroring the trade tuples of `quick_backtest`. -/
inductive TradeRec where
  | buyT (date code : ℕ) (price : ℚ) (shares : ℤ)
  | sellT (date code : ℕ) (price profit profitRate : ℚ) (holdDays : ℤ)
  deriving DecidableEq, Repr

/-- Date stamp of a ledger entry. -/
def TradeRec.date : TradeRec → ℕ
  | .buyT d _ _ _ => d
  | .sellT d _ _ _ _ _ => d

/-- Instrument code of a ledger entry. -/
def TradeRec.code : TradeRec → ℕ
  | .buyT _ c _ _ => c
  | .sellT _ c _ _ _ _ => c

/-- Whether a ledger entry is a BUY. -/
def TradeRec.isBuy : TradeRec → Bool
  | .buyT _ _ _ _ => true
  | _ => false

/-- Whether a ledger entry is a SELL. -/
def TradeRec.isSell : TradeRec → Bool
  | .sellT _ _ _ _ _ _ => true
  | _ => false

/-- Simulator state: cash, the open-position dictionary (insertion-ordered
association list, as a Python dict), and the trade ledger. -/
structure BTState where
  cash : ℚ
  positions : List (ℕ × PosInfo)
  trades : List TradeRec
  deriving DecidableEq, Repr

/-- Dictionary lookup on the position list (first matching key). -/
def posLookup : List (ℕ × PosInfo) → ℕ → Option PosInfo
  | [], _ => none
  | (c, p) :: t, code => if c = code then some p else posLookup t code

/-- Dictionary assignment: replace in place when the key exists, append
otherwise (Python dict update semantics). -/
def posSet : List (ℕ × PosInfo) → ℕ → PosInfo → List (ℕ × PosInfo)
  | [], code, v => [(code, v)]
  | (c, p) :: t, code, v => if c = code then (code, v) :: t else (c, p) :: posSet t code v

/-- Dictionary deletion: remove the first entry with the given key. -/
def posDel : List (ℕ × PosInfo) → ℕ → List (ℕ × PosInfo)
  | [], _ => []
  | (c, p) :: t, code => if c = code then t else (c, p) :: posDel t code

/-- Python `int()` truncation toward zero. -/
def pytrunc (q : ℚ) : ℤ := if 0 ≤ q then ⌊q⌋ else ⌈q⌉

/-- Share quantity bought by `SimpleBacktest.buy`: the 100,000 per-trade
notional divided by price, truncated to a whole 100-share lot. -/
def buyShares (price : ℚ) : ℤ := pytrunc (100000 / price / 100) * 100

/-- The `SimpleBacktest.buy` method: skip when cash is below the per-trade
notional, when the rounded share count is zero, or when the fee-inclusive
cost exceeds cash; otherwise pay `shares * price * 1.0003`, open the
position and append a BUY ledger entry. -/
def btBuy (s : BTState) (code : ℕ) (price : ℚ) (date : ℕ) : BTState :=
  if s.cash < 100000 then s
  else
    let shares := buyShares price
    if shares = 0 then s
    else
      let cost := shares * price * (10003/10000)
      if s.cash < cost then s
      else
        { cash := s.cash - cost
          positions := posSet s.positions code ⟨shares, price, date⟩
          trades := s.trades ++ [.buyT date code price shares] }

/-- The `SimpleBacktest.sell` method: skip when no position is open for the
code; otherwise receive `shares * price * 0.9987`, close the position and
append a SELL ledger entry carrying realized profit, profit rate and
holding days. -/
def btSell (s : BTState) (code : ℕ) (price : ℚ) (date : ℕ) : BTState :=
  match posLookup s.positions code with
  | none => s
  | some pos =>
    let revenue := pos.shares * price * (9987/10000)
    let profit := revenue - pos.shares * pos.cost * (10003/10000)
    let profitRate := (price / pos.cost - 1) * 100
    { cash := s.cash + revenue
      positions := posDel s.positions code
      trades := s.trades ++ [.sellT date code price profit profitRate ((date : ℤ) - pos.buyDate)] }

/-- Data available to the simulator for one instrument and date. -/
structure BarSig where
  close : ℚ
  buy : Bool
  sell : Bool

/-- One simulated date of the `main` loop of `quick_backtest`: first execute
the sell signal for every currently open position that has a bar on this
date, then execute the buy signal for every instrument of the universe that
has a bar and no open position. -/
def stepDate (data : ℕ → ℕ → Option BarSig) (univ : List ℕ) (date : ℕ)
    (s : BTState) : BTState :=
  let afterSell := (s.positions.map Prod.fst).foldl
    (fun st code =>
      match data code date with
      | some b => if b.sell then btSell st code b.close date else st
      | none => st) s
  univ.foldl
    (fun st code =>
      if (posLookup st.positions code).isNone then
        match data code date with
        | some b => if b.buy then btBuy st code b.close date else st
        | none => st
      else st) afterSell

/-- Full simulator run over an ascending list of trading dates, starting
from the initial capital of 1,000,000. -/
def runBacktest (data : ℕ → ℕ → Option BarSig) (univ : List ℕ)
    (dates : List ℕ) : BTState :=
  dates.foldl (fun s d => stepDate data univ d s) ⟨1000000, [], []⟩

/-- One raw call against the simulator portfolio (for the call-sequence
invariants of the `SimpleBacktest` class itself). -/
structure BTCall where
  isBuy : Bool
  code : ℕ
  price : ℚ
  date : ℕ

/-- Apply a sequence of raw buy/sell calls to a state. -/
def applyCalls (s : BTState) (calls : List BTCall) : BTState :=
  calls.foldl (fun st c => if c.isBuy then btBuy st c.code c.price c.date
                           else btSell st c.code c.price c.date) s

/-- Number of BUY ledger entries for a code. -/
def nBuys (tr : List TradeRec) (code : ℕ) : ℕ :=
  (tr.filter fun t => t.isBuy && decide (t.code = code)).length

/-- Number of SELL ledger entries for a code. -/
def nSells (tr : List TradeRec) (code : ℕ) : ℕ :=
  (tr.filter fun t => t.isSell && decide (t.code = code)).length

/-! Performance metrics. -/

/-- Annualized return as reported by `quick_backtest.main` (a percentage):
the final value over the 1,000,000 initial capital, raised to 365 over the
elapsed calendar days, minus one, times 100. -/
noncomputable def annualReturnQuick (finalValue : ℝ) (days : ℕ) : ℝ :=
  ((finalValue / 1000000) ^ ((365 : ℝ) / days) - 1) * 100

/-- Total return of `stock_backtest._calculate_performance`. -/
noncomputable def totalReturnStock (finalValue initialCapital : ℝ) : ℝ :=
  finalValue / initialCapital - 1

/-- Annualized return of `stock_backtest._calculate_performance`: one plus
the total return raised to the reciprocal of `trading_days / 252`. -/
noncomputable def annualizedReturnStock (finalValue initialCapital : ℝ)
    (tradingDays : ℕ) : ℝ :=
  (1 + totalReturnStock finalValue initialCapital) ^ ((1 : ℝ) / ((tradingDays : ℝ) / 252)) - 1

/-- The annualization formula asserted by the specification: the growth
factor compounded by elapsed calendar days over 365. -/
noncomputable def annualizedReturnSpec (finalValue initialCapital : ℝ)
    (calendarDays : ℕ) : ℝ :=
  (finalValue / initialCapital) ^ ((365 : ℝ) / calendarDays) - 1

theorem getD_range_map {α : Type} (f : ℕ → α) (n i : ℕ) (d : α) :
    ((List.range n).map f).getD i d = if i < n then f i else d := by
  by_cases h : i < n
  · simp [List.getD_eq_getElem?_getD, List.getElem?_map, List.getElem?_range h, h]
  · have hle : (List.range n).length ≤ i := by simpa using Nat.le_of_not_lt h
    simp [List.getD_eq_getElem?_getD, List.getElem?_map, List.getElem?_eq_none hle, h]

theorem getD_osome (l : List ℚ) (i : ℕ) :
    (osome l).getD i none = if i < l.length then some (l.getD i 0) else none := by
  by_cases h : i < l.length
  · simp [osome, List.getD_eq_getElem?_getD, List.getElem?_map, List.getElem?_eq_getElem h, h,
      List.getD_eq_getElem l 0 h]
  · have hle : l.length ≤ i := Nat.le_of_not_lt h
    simp [osome, List.getD_eq_getElem?_getD, List.getElem?_map, List.getElem?_eq_none hle, h]

theorem getLastD_eq_getD {α : Type} (l : List α) (d : α) :
    l.getLastD d = l.getD (l.length - 1) d := by
  induction l generalizing d with
  | nil => rfl
  | cons a t ih =>
    cases t with
    | nil => rfl
    | cons b t' =>
      rw [List.getLastD_cons, ih]
      have h1 : (b :: t').length - 1 < (b :: t').length := by simp
      have h2 : (a :: b :: t').length - 1 = (b :: t').length - 1 + 1 := by simp
      rw [h2, List.getD_cons_succ]
      rw [List.getD_eq_getElem _ _ h1, List.getD_eq_getElem _ _ h1]

theorem oGT_none_right (x : Option ℚ) : oGT x none = false := by cases x <;> rfl



theorem REF_getD (s : OSeries) (k i : ℕ) (h : i < s.length) :
    (REF s k).getD i none = if k ≤ i then s.getD (i - k) none else none := by
  unfold REF; rw [getD_range_map, if_pos h]

/-- Claim C3, amended: for every fixed input history with at least 20 bars
(and equally long close and amount columns), the fast-mode screening filter
equals the last element of the full-history boolean series. -/
theorem screening_fast_full_agree (closes amounts : List ℚ) (g : Bool)
    (hlen : amounts.length = closes.length) (h20 : 20 ≤ closes.length) :
    «策略1_fast» closes amounts g = («策略1» closes amounts g).getLastD false := by
  have hn : 2 ≤ closes.length := le_trans (by norm_num) h20
  have hlt : closes.length - 1 < closes.length := by omega
  unfold «策略1» «策略1_fast»
  rw [if_neg (by omega)]
  conv_rhs => rw [getLastD_eq_getD]
  simp only [List.length_map, List.length_range]
  conv_rhs => rw [getD_range_map]
  rw [if_pos hlt]
  rw [REF_getD _ _ _ (by simpa [osome] using hlt)]
  rw [if_pos (by omega : 1 ≤ closes.length - 1)]
  rw [show closes.length - 1 - 1 = closes.length - 2 by omega]
  rw [getD_osome, if_pos (by omega : closes.length - 2 < closes.length)]
  rw [getLastD_eq_getD, getLastD_eq_getD, hlen]
  simp [oLT]



/-- Claim C3, counterexample: on a 2-bar history the fast-mode screening
filter returns false (fewer than 20 bars) while the last element of the
full-history series is true, so the two modes disagree as the claim is
stated. -/
theorem screening_fast_full_disagree :
    «策略1_fast» [10, 10] [40000000, 40000000] false = false ∧
    («策略1» [10, 10] [40000000, 40000000] false).getLastD false = true := by
  constructor <;> with_unfolding_all decide

/-- Witness for the amended claim C3 at a concrete 20-bar history. -/
theorem screening_fast_full_agree_witness :
    (List.replicate 20 (40000000:ℚ)).length = (List.replicate 20 (10:ℚ)).length ∧
    20 ≤ (List.replicate 20 (10:ℚ)).length ∧
    «策略1_fast» (List.replicate 20 10) (List.replicate 20 40000000) false
      = («策略1» (List.replicate 20 10) (List.replicate 20 40000000) false).getLastD false :=
  ⟨by simp, by simp,
    screening_fast_full_agree _ _ _ (by simp) (by simp)⟩

/-- Claim C4: on fewer than 60 bars the regime classifier (策略HS300) and
the buy-signal evaluator (策略2) each return an all-false series of the
input's length, producing no true value by default. -/
theorem insufficient_history_all_false :
    (∀ closes vols : List ℚ, closes.length < 60 →
      «策略HS300» closes vols = List.replicate closes.length false) ∧
    (∀ (closes highs lows vols amounts : List ℚ) (g : Bool) (hs300 : List Bool),
      closes.length < 60 →
      «策略2» closes highs lows vols amounts g hs300 = List.replicate closes.length false) := by
  constructor
  · intro closes vols h
    unfold «策略HS300»
    refine List.eq_replicate_iff.mpr ⟨by simp, ?_⟩
    intro b hb
    obtain ⟨i, hi, rfl⟩ := List.mem_map.mp hb
    have hi' : i < closes.length := List.mem_range.mp hi
    have h60 : (SMA closes 60).getD i none = none := by
      unfold SMA
      rw [getD_range_map, if_pos hi', if_neg (by omega)]
    rw [h60, oGT_none_right]
    simp
  · intro closes highs lows vols amounts g hs300 h
    unfold «策略2»
    rw [if_pos h]

/-- Witness for claim C4 at a concrete 2-bar history. -/
theorem insufficient_history_witness :
    ([(1:ℚ), 2].length < 60) ∧
    «策略HS300» [1, 2] [3, 4] = List.replicate ([(1:ℚ), 2]).length false ∧
    «策略2» [1, 2] [1, 2] [1, 2] [1, 2] [1, 2] false [] = List.replicate ([(1:ℚ), 2]).length false :=
  ⟨by decide,
    insufficient_history_all_false.1 [1, 2] [3, 4] (by decide),
    insufficient_history_all_false.2 [1, 2] [1, 2] [1, 2] [1, 2] [1, 2] false [] (by decide)⟩

/-- Claim C5: for a position entered at 100 whose running peak reaches 130
before the close falls to 113, the sell evaluator fires at that bar, and it
is the trailing-stop condition (12% threshold) that holds there while
take-profit, stop-loss, MA10-break and MACD dead-cross are all false. -/
theorem trailing_stop_scenario :
    «卖策略» [100, 113] [100, 130] [true, false] = [false, true] ∧
    trailingStopCond 100 113 130 = true ∧
    takeProfitCond 100 113 = false ∧
    stopLossCond 100 113 = false ∧
    ma10BreakCond (SMA [100, 113] 10) 1 113 = false ∧
    deadCrossCond (CROSS (osome (MACD_DEA [100, 113])) (osome (MACD_DIFF [100, 113]))) 1 = false := by
  refine ⟨?_, ?_, ?_, ?_, ?_, ?_⟩ <;> with_unfolding_all decide



/-- Claim C8, counterexample: stock_backtest's annualized return for a
doubling over 126 trading days (roughly 182 calendar days) differs from the
claimed calendar-day formula (final/initial)^(365/days) - 1. -/
theorem annualized_return_counterexample :
    annualizedReturnStock 2 1 126 ≠ annualizedReturnSpec 2 1 182 := by
  unfold annualizedReturnStock annualizedReturnSpec totalReturnStock
  have e1 : (1 : ℝ) + (2 / 1 - 1) = 2 := by norm_num
  have e2 : (1 : ℝ) / ((126 : ℕ) / 252 : ℝ) = 2 := by norm_num
  have e3 : ((2 : ℝ) / 1) = 2 := by norm_num
  rw [e1, e2, e3]
  have hlt : (2 : ℝ) ^ (2 : ℝ) < 2 ^ ((365 : ℝ) / (182 : ℕ)) := by
    rw [Real.rpow_lt_rpow_left_iff (by norm_num : (1:ℝ) < 2)]
    norm_num
  intro h
  have h2 : (2 : ℝ) ^ (2 : ℝ) = 2 ^ ((365 : ℝ) / (182 : ℕ)) := by linarith
  linarith



/-- Claim C8, amended: quick_backtest reports the annualized return as
100 * ((final/initial)^(365/elapsed calendar days) - 1), as claimed, while
stock_backtest reports (final/initial)^(252/trading days) - 1, compounding
by trading days over 252 instead of calendar days over 365. -/
theorem annualized_return_formulas :
    (∀ (finalValue : ℝ) (days : ℕ),
        annualReturnQuick finalValue days
          = 100 * ((finalValue / 1000000) ^ ((365 : ℝ) / days) - 1)) ∧
    (∀ (finalValue initialCapital : ℝ) (tradingDays : ℕ),
        annualizedReturnStock finalValue initialCapital tradingDays
          = (finalValue / initialCapital) ^ ((252 : ℝ) / tradingDays) - 1) := by
  constructor
  · intro fv d
    unfold annualReturnQuick
    ring
  · intro fv ic td
    unfold annualizedReturnStock totalReturnStock
    have h1 : (1 : ℝ) + (fv / ic - 1) = fv / ic := by ring
    have h2 : (1 : ℝ) / ((td : ℝ) / 252) = 252 / (td : ℝ) := one_div_div _ _
    rw [h1, h2]



/-- Claim C7: an executed buy debits exactly shares * price * 1.0003 with
shares = floor(100000 / price / 100) * 100; a buy blocked by low cash, a
zero share count, or insufficient funds for the fee-inclusive cost leaves
the state unchanged; a sell credits exactly shares * price * 0.9987. -/
theorem trade_cash_arithmetic (s : BTState) (code : ℕ) (price : ℚ) (date : ℕ)
    (pos : PosInfo) :
    (0 < price → ¬ s.cash < 100000 → buyShares price ≠ 0 →
      ¬ s.cash < buyShares price * price * (10003/10000) →
      (btBuy s code price date).cash = s.cash - buyShares price * price * (10003/10000)
        ∧ buyShares price = ⌊(100000 : ℚ) / price / 100⌋ * 100
        ∧ (btBuy s code price date).trades
            = s.trades ++ [.buyT date code price (buyShares price)])
    ∧ ((s.cash < 100000 ∨ buyShares price = 0
          ∨ s.cash < buyShares price * price * (10003/10000)) →
        btBuy s code price date = s)
    ∧ (posLookup s.positions code = some pos →
        (btSell s code price date).cash = s.cash + pos.shares * price * (9987/10000)) := by
  refine ⟨?_, ?_, ?_⟩
  · intro hp h1 h2 h3
    refine ⟨?_, ?_, ?_⟩
    · simp only [btBuy, if_neg h1, if_neg h2, if_neg h3]
    · unfold buyShares pytrunc
      rw [if_pos (by positivity : (0:ℚ) ≤ 100000 / price / 100)]
    · simp only [btBuy, if_neg h1, if_neg h2, if_neg h3]
  · intro h
    unfold btBuy
    dsimp only
    split_ifs with a b c
    · rfl
    · rfl
    · rfl
    · rcases h with h | h | h
      · exact absurd h a
      · exact absurd h b
      · exact absurd h c
  · intro hl
    simp only [btSell, hl]

/-- Witness for claim C7 at concrete states and prices. -/
theorem trade_cash_arithmetic_witness :
    (btBuy ⟨1000000, [], []⟩ 3 10 5).cash
        = 1000000 - buyShares 10 * 10 * (10003/10000)
      ∧ (btSell ⟨1000000, [(7, ⟨100, 50, 0⟩)], []⟩ 7 60 9).cash
        = 1000000 + (100 : ℤ) * 60 * (9987/10000) :=
  ⟨((trade_cash_arithmetic ⟨1000000, [], []⟩ 3 10 5 ⟨0, 0, 0⟩).1
      (by norm_num) (by with_unfolding_all decide) (by with_unfolding_all decide)
      (by with_unfolding_all decide)).1,
   (trade_cash_arithmetic ⟨1000000, [(7, ⟨100, 50, 0⟩)], []⟩ 7 60 9 ⟨100, 50, 0⟩).2.2
      (by rfl)⟩



/-- Each sub-score of the scoring module is non-negative. -/
theorem scoreMACompress_nonneg (closes : List ℚ) : 0 ≤ scoreMACompress closes := by
  unfold scoreMACompress
  split
  · split_ifs with h1 h2
    · exact le_refl 0
    · linarith
    · exact le_refl 0
  · exact le_refl 0



theorem getLastD_nonneg (l : List ℚ) (h : ∀ v ∈ l, 0 ≤ v) : 0 ≤ l.getLastD 0 := by
  cases l with
  | nil => exact le_refl 0
  | cons a t =>
    have hm : (a :: t).getLast (by simp) ∈ a :: t := List.getLast_mem _
    rw [List.getLastD_eq_getLast?, List.getLast?_eq_getLast _ (by simp)]
    exact h _ hm

theorem scoreVolRatio_nonneg (vols : List ℚ) (hv : ∀ v ∈ vols, 0 ≤ v) :
    0 ≤ scoreVolRatio vols := by
  unfold scoreVolRatio
  refine le_min (by norm_num) ?_
  have hratio : (0:ℚ) ≤ (match (SMA vols 5).getLastD none with
      | some v => if 0 < v then vols.getLastD 0 / v else 1
      | none => 1) := by
    split
    · split_ifs with h
      · exact div_nonneg (getLastD_nonneg vols hv) (le_of_lt h)
      · norm_num
    · norm_num
  positivity


theorem scoreMACDHist_nonneg (closes : List ℚ) : 0 ≤ scoreMACDHist closes := by
  unfold scoreMACDHist
  exact le_min (by norm_num) (by positivity)

theorem scoreRSIBand_nonneg (closes : List ℚ) : 0 ≤ scoreRSIBand closes := by
  unfold scoreRSIBand
  split
  · split_ifs <;> norm_num
  · exact le_refl 0

theorem scorePricePos_nonneg (closes highs lows : List ℚ) :
    0 ≤ scorePricePos closes highs lows := by
  unfold scorePricePos
  dsimp only
  split_ifs <;> norm_num

/-- Claim C9: the composite score returned by 策略2_精选版 always lies in
[0, 100] (under non-negative volumes), in particular whenever the buy
signal is confirmed. -/
theorem score_bounds (closes highs lows vols amounts : List ℚ) (g : Bool)
    (hs300 : List Bool) (hv : ∀ v ∈ vols, 0 ≤ v) :
    0 ≤ («策略2_精选版» closes highs lows vols amounts g hs300).2
      ∧ («策略2_精选版» closes highs lows vols amounts g hs300).2 ≤ 100 := by
  unfold «策略2_精选版»
  dsimp only
  split_ifs
  · constructor
    · refine le_min (by norm_num) ?_
      have h1 := scoreMACompress_nonneg closes
      have h2 := scoreVolRatio_nonneg vols hv
      have h3 := scoreMACDHist_nonneg closes
      have h4 := scoreRSIBand_nonneg closes
      have h5 := scorePricePos_nonneg closes highs lows
      linarith
    · exact min_le_left _ _
  · exact ⟨le_refl 0, by norm_num⟩

/-- Witness for claim C9 at the empty history. -/
theorem score_bounds_witness :
    (∀ v ∈ ([] : List ℚ), 0 ≤ v) ∧
    (0 ≤ («策略2_精选版» [] [] [] [] [] false []).2
      ∧ («策略2_精选版» [] [] [] [] [] false []).2 ≤ 100) :=
  ⟨by simp, score_bounds [] [] [] [] [] false [] (by simp)⟩

theorem mem_drop_range {n k j : ℕ} (h : j ∈ (List.range n).drop k) : k ≤ j ∧ j < n := by
  obtain ⟨i, hlen, hval⟩ := List.mem_iff_getElem.mp h
  rw [List.getElem_drop, List.getElem_range] at hval
  have : (List.drop k (List.range n)).length = n - k := by simp
  omega

theorem firstTrigger_mem (cond : ℕ → ℚ → Bool) (upd : ℕ → ℚ → ℚ) (pk : ℚ)
    (l : List ℕ) (j : ℕ) (h : firstTrigger cond upd pk l = some j) : j ∈ l := by
  induction l generalizing pk with
  | nil => simp [firstTrigger] at h
  | cons a t ih =>
    rw [firstTrigger] at h
    by_cases hc : cond a (upd a pk) = true
    · simp only [hc, if_pos] at h
      simp only [Option.some.injEq] at h
      exact h ▸ List.mem_cons_self a t
    · simp only [hc] at h
      exact List.mem_cons_of_mem a (ih _ h)

theorem getD_replicate_false (n i : ℕ) : (List.replicate n false).getD i false = false := by
  rw [List.getD_eq_getElem?_getD, List.getElem?_replicate]
  split <;> simp

theorem markSell_spec (buy : List Bool) (pick : ℕ → Option ℕ)
    (hpick : ∀ b j, pick b = some j → b < j)
    (L : List ℕ) (hL : ∀ b ∈ L, buy.getD b false = true)
    (sig : List Bool)
    (hsig : ∀ i, sig.getD i false = true → ∃ b, b < i ∧ buy.getD b false = true) :
    ∀ i, (markSell pick L sig).getD i false = true →
      ∃ b, b < i ∧ buy.getD b false = true := by
  induction L generalizing sig with
  | nil => simpa [markSell] using hsig
  | cons a t ih =>
    have hstep : markSell pick (a :: t) sig
        = markSell pick t (match pick a with | some j => sig.set j true | none => sig) := rfl
    rw [hstep]
    refine ih (fun b hb => hL b (List.mem_cons_of_mem a hb)) _ ?_
    cases hp : pick a with
    | none => simpa using hsig
    | some j =>
      intro i hi
      by_cases hij : i = j
      · exact ⟨a, hij ▸ hpick a j hp, hL a (List.mem_cons_self a t)⟩
      · apply hsig
        rw [List.getD_eq_getElem?_getD] at hi ⊢
        rwa [List.getElem?_set_ne (fun hji => hij hji.symm)] at hi



/-- Claim C2: every bar at which the sell series of CeLue.卖策略 (or of the
CeLue_Advanced.卖策略 fallback) is true lies strictly after some true buy
index, so a sell is never produced at the entry date of the buy that
triggered it. -/
theorem sell_strictly_after_entry :
    (∀ (closes highs : List ℚ) (buy : List Bool) (i : ℕ),
        («卖策略» closes highs buy).getD i false = true →
        ∃ b, b < i ∧ buy.getD b false = true) ∧
    (∀ (closes : List ℚ) (buy : List Bool) (i : ℕ),
        («卖策略_Advanced» closes buy).getD i false = true →
        ∃ b, b < i ∧ buy.getD b false = true) := by
  constructor
  · intro closes highs buy i hi
    unfold «卖策略» at hi
    split_ifs at hi with hc
    case pos =>
      dsimp only at hi
      refine markSell_spec buy _ ?_ _ ?_ _ ?_ i hi
      · intro b j hp
        have hj := firstTrigger_mem _ _ _ _ _ hp
        have := mem_drop_range hj
        omega
      · intro b hb
        exact (List.mem_filter.mp hb).2
      · intro k hk
        rw [getD_replicate_false] at hk; exact absurd hk (by simp)
    case neg =>
      rw [getD_replicate_false] at hi; exact absurd hi (by simp)
  · intro closes buy i hi
    unfold «卖策略_Advanced» at hi
    split_ifs at hi with hc
    case pos =>
      dsimp only at hi
      refine markSell_spec buy _ ?_ _ ?_ _ ?_ i hi
      · intro b j hp
        have hj := List.mem_of_find?_eq_some hp
        have hb := mem_drop_range hj
        have hpj := List.find?_some hp
        simp only [Bool.and_eq_true, decide_eq_true_eq] at hpj
        omega
      · intro b hb
        rw [List.mem_reverse] at hb
        exact (List.mem_filter.mp hb).2
      · intro k hk
        rw [getD_replicate_false] at hk; exact absurd hk (by simp)
    case neg =>
      rw [getD_replicate_false] at hi; exact absurd hi (by simp)

/-- Witness for claim C2 at concrete two-bar histories with one buy. -/
theorem sell_strictly_after_entry_witness :
    («卖策略» [100, 113] [100, 130] [true, false]).getD 1 false = true ∧
    (∃ b, b < 1 ∧ [true, false].getD b false = true) ∧
    («卖策略_Advanced» [100, 90] [true, false]).getD 1 false = true ∧
    (∃ b, b < 1 ∧ [true, false].getD b false = true) := by
  refine ⟨by with_unfolding_all decide, ?_, by with_unfolding_all decide, ?_⟩
  · exact sell_strictly_after_entry.1 [100, 113] [100, 130] [true, false] 1
      (by with_unfolding_all decide)
  · exact sell_strictly_after_entry.2 [100, 90] [true, false] 1
      (by with_unfolding_all decide)

theorem posLookup_mem {ps : List (ℕ × PosInfo)} {c : ℕ} {v : PosInfo}
    (h : posLookup ps c = some v) : (c, v) ∈ ps := by
  induction ps with
  | nil => simp [posLookup] at h
  | cons hd t ih =>
    obtain ⟨c', p⟩ := hd
    rw [posLookup] at h
    split_ifs at h with hc
    · obtain rfl := Option.some.injEq .. ▸ h
      subst hc
      exact List.mem_cons_self _ _
    · exact List.mem_cons_of_mem _ (ih h)

theorem mem_posSet {ps : List (ℕ × PosInfo)} {c : ℕ} {v : PosInfo} {p : ℕ × PosInfo}
    (h : p ∈ posSet ps c v) : p = (c, v) ∨ p ∈ ps := by
  induction ps with
  | nil => simpa [posSet] using h
  | cons hd t ih =>
    obtain ⟨c', q⟩ := hd
    rw [posSet] at h
    split_ifs at h with hc
    · rcases List.mem_cons.mp h with h | h
      · exact Or.inl h
      · exact Or.inr (List.mem_cons_of_mem _ h)
    · rcases List.mem_cons.mp h with h | h
      · exact Or.inr (h ▸ List.mem_cons_self _ _)
      · rcases ih h with h | h
        · exact Or.inl h
        · exact Or.inr (List.mem_cons_of_mem _ h)

theorem mem_posDel {ps : List (ℕ × PosInfo)} {c : ℕ} {p : ℕ × PosInfo}
    (h : p ∈ posDel ps c) : p ∈ ps := by
  induction ps with
  | nil => simp [posDel] at h
  | cons hd t ih =>
    obtain ⟨c', q⟩ := hd
    rw [posDel] at h
    split_ifs at h with hc
    · exact List.mem_cons_of_mem _ h
    · rcases List.mem_cons.mp h with h | h
      · exact h ▸ List.mem_cons_self _ _
      · exact List.mem_cons_of_mem _ (ih h)

theorem buyShares_nonneg {price : ℚ} (h : 0 ≤ price) : 0 ≤ buyShares price := by
  unfold buyShares pytrunc
  have hq : (0:ℚ) ≤ 100000 / price / 100 := by positivity
  rw [if_pos hq]
  have : (0:ℤ) ≤ ⌊(100000:ℚ) / price / 100⌋ := Int.floor_nonneg.mpr hq
  positivity

/-- Portfolio safety invariant: non-negative cash and non-negative share
counts in every open position. -/
def cashInv (s : BTState) : Prop :=
  0 ≤ s.cash ∧ ∀ p ∈ s.positions, 0 ≤ p.2.shares

theorem cashInv_btBuy {s : BTState} (h : cashInv s) (code : ℕ) {price : ℚ}
    (hp : 0 ≤ price) (date : ℕ) : cashInv (btBuy s code price date) := by
  unfold btBuy
  dsimp only
  split_ifs with a b c
  · exact h
  · exact h
  · exact h
  · constructor
    · have : ¬ s.cash < buyShares price * price * (10003/10000) := c
      simp only [BTState.cash]
      linarith [not_lt.mp c]
    · intro p hp'
      rcases mem_posSet hp' with rfl | hmem
      · exact buyShares_nonneg hp
      · exact h.2 p hmem

theorem cashInv_btSell {s : BTState} (h : cashInv s) (code : ℕ) {price : ℚ}
    (hp : 0 ≤ price) (date : ℕ) : cashInv (btSell s code price date) := by
  unfold btSell
  cases hl : posLookup s.positions code with
  | none => exact h
  | some pos =>
    have hshares : 0 ≤ pos.shares := h.2 (code, pos) (posLookup_mem hl)
    constructor
    · have hrev : (0:ℚ) ≤ (pos.shares : ℚ) * price * (9987/10000) := by
        have : (0:ℚ) ≤ (pos.shares : ℚ) := by exact_mod_cast hshares
        positivity
      simp only [BTState.cash]
      linarith [h.1]
    · intro p hp'
      exact h.2 p (mem_posDel hp')



theorem cashInv_applyCalls {s : BTState} (h : cashInv s) (calls : List BTCall)
    (hp : ∀ c ∈ calls, 0 ≤ c.price) : cashInv (applyCalls s calls) := by
  induction calls generalizing s with
  | nil => exact h
  | cons c t ih =>
    have hstep : applyCalls s (c :: t)
        = applyCalls (if c.isBuy then btBuy s c.code c.price c.date
                      else btSell s c.code c.price c.date) t := rfl
    rw [hstep]
    refine ih ?_ (fun c' hc' => hp c' (List.mem_cons_of_mem _ hc'))
    have hpc : 0 ≤ c.price := hp c (List.mem_cons_self _ _)
    split_ifs
    · exact cashInv_btBuy h c.code hpc c.date
    · exact cashInv_btSell h c.code hpc c.date

/-- Claim C10: for every sequence of buy and sell calls on the simulator
portfolio starting from a non-negative initial capital, with non-negative
prices, the cash balance never becomes negative. -/
theorem cash_never_negative (calls : List BTCall) (initialCapital : ℚ)
    (h0 : 0 ≤ initialCapital) (hp : ∀ c ∈ calls, 0 ≤ c.price) :
    0 ≤ (applyCalls ⟨initialCapital, [], []⟩ calls).cash :=
  (cashInv_applyCalls ⟨h0, by simp⟩ calls hp).1

/-- Witness for claim C10 at a concrete call sequence. -/
theorem cash_never_negative_witness :
    (0:ℚ) ≤ 1000000 ∧
    (∀ c ∈ [BTCall.mk true 0 10 0, BTCall.mk false 0 11 1, BTCall.mk true 5 0 2], 0 ≤ c.price) ∧
    0 ≤ (applyCalls ⟨1000000, [], []⟩
          [BTCall.mk true 0 10 0, BTCall.mk false 0 11 1, BTCall.mk true 5 0 2]).cash :=
  ⟨by norm_num, by with_unfolding_all decide,
    cash_never_negative _ _ (by norm_num) (by with_unfolding_all decide)⟩



/-- Keys of the open-position dictionary. -/
def keysOf (ps : List (ℕ × PosInfo)) : List ℕ := ps.map Prod.fst

theorem mem_keysOf {ps : List (ℕ × PosInfo)} {c : ℕ} :
    c ∈ keysOf ps ↔ ∃ v, (c, v) ∈ ps := by
  unfold keysOf
  rw [List.mem_map]
  constructor
  · rintro ⟨⟨a, v⟩, hm, rfl⟩
    exact ⟨v, hm⟩
  · rintro ⟨v, hm⟩
    exact ⟨(c, v), hm, rfl⟩

theorem posLookup_eq_none_iff {ps : List (ℕ × PosInfo)} {c : ℕ} :
    posLookup ps c = none ↔ c ∉ keysOf ps := by
  induction ps with
  | nil => simp [posLookup, keysOf]
  | cons hd t ih =>
    obtain ⟨c', p⟩ := hd
    rw [posLookup]
    have hk : keysOf ((c', p) :: t) = c' :: keysOf t := rfl
    rw [hk]
    split_ifs with hc
    · subst hc
      simp
    · rw [List.mem_cons, ih]
      constructor
      · rintro h (rfl | hmem)
        · exact hc rfl
        · exact h hmem
      · exact fun h hmem => h (Or.inr hmem)

theorem posSet_absent {ps : List (ℕ × PosInfo)} {c : ℕ} (v : PosInfo)
    (h : posLookup ps c = none) : posSet ps c v = ps ++ [(c, v)] := by
  induction ps with
  | nil => rfl
  | cons hd t ih =>
    obtain ⟨c', p⟩ := hd
    rw [posLookup] at h
    split_ifs at h with hc
    rw [posSet, if_neg hc, ih h]
    rfl

theorem posLookup_append {ps qs : List (ℕ × PosInfo)} {c : ℕ} :
    posLookup (ps ++ qs) c
      = match posLookup ps c with
        | some v => some v
        | none => posLookup qs c := by
  induction ps with
  | nil => simp [posLookup]
  | cons hd t ih =>
    obtain ⟨c', p⟩ := hd
    rw [List.cons_append, posLookup, posLookup]
    split_ifs with hc
    · rfl
    · exact ih

theorem posLookup_posDel_self {ps : List (ℕ × PosInfo)} {c : ℕ}
    (h : (keysOf ps).Nodup) : posLookup (posDel ps c) c = none := by
  induction ps with
  | nil => rfl
  | cons hd t ih =>
    obtain ⟨c', p⟩ := hd
    have h1 : c' ∉ keysOf t := (List.nodup_cons.mp h).1
    have h2 : (keysOf t).Nodup := (List.nodup_cons.mp h).2
    rw [posDel]
    split_ifs with hc
    · subst hc
      exact posLookup_eq_none_iff.mpr h1
    · rw [posLookup, if_neg hc]
      exact ih h2

theorem posLookup_posDel_ne {ps : List (ℕ × PosInfo)} {c c' : ℕ} (h : c' ≠ c) :
    posLookup (posDel ps c) c' = posLookup ps c' := by
  induction ps with
  | nil => rfl
  | cons hd t ih =>
    obtain ⟨c0, p⟩ := hd
    rw [posDel]
    split_ifs with hc
    · subst hc
      rw [posLookup, if_neg (show ¬ c0 = c' from fun he => h he.symm)]
    · rw [posLookup, posLookup]
      split_ifs with h0
      · rfl
      · exact ih

theorem keysOf_posDel_nodup {ps : List (ℕ × PosInfo)} {c : ℕ}
    (h : (keysOf ps).Nodup) : (keysOf (posDel ps c)).Nodup := by
  induction ps with
  | nil => exact h
  | cons hd t ih =>
    obtain ⟨c', p⟩ := hd
    have h1 : c' ∉ keysOf t := (List.nodup_cons.mp h).1
    have h2 : (keysOf t).Nodup := (List.nodup_cons.mp h).2
    rw [posDel]
    split_ifs with hc
    · exact h2
    · have h3 : c' ∉ keysOf (posDel t c) := by
        intro hmem
        obtain ⟨v, hv⟩ := mem_keysOf.mp hmem
        exact h1 (mem_keysOf.mpr ⟨v, mem_posDel hv⟩)
      exact List.nodup_cons.mpr ⟨h3, ih h2⟩



theorem nBuys_append (tr l : List TradeRec) (code : ℕ) :
    nBuys (tr ++ l) code = nBuys tr code + nBuys l code := by
  unfold nBuys
  rw [List.filter_append, List.length_append]

theorem nSells_append (tr l : List TradeRec) (code : ℕ) :
    nSells (tr ++ l) code = nSells tr code + nSells l code := by
  unfold nSells
  rw [List.filter_append, List.length_append]

theorem nBuys_buy_single (d c : ℕ) (p : ℚ) (q : ℤ) (code : ℕ) :
    nBuys [.buyT d c p q] code = if c = code then 1 else 0 := by
  unfold nBuys
  simp [TradeRec.isBuy, TradeRec.code]
  split_ifs with h <;> simp [List.filter, h, TradeRec.isBuy, TradeRec.code]

theorem nSells_buy_single (d c : ℕ) (p : ℚ) (q : ℤ) (code : ℕ) :
    nSells [.buyT d c p q] code = 0 := by
  simp [nSells, List.filter, TradeRec.isSell]

theorem nBuys_sell_single (d c : ℕ) (p pr prr : ℚ) (hd : ℤ) (code : ℕ) :
    nBuys [.sellT d c p pr prr hd] code = 0 := by
  simp [nBuys, List.filter, TradeRec.isBuy]

theorem nSells_sell_single (d c : ℕ) (p pr prr : ℚ) (hd : ℤ) (code : ℕ) :
    nSells [.sellT d c p pr prr hd] code = if c = code then 1 else 0 := by
  unfold nSells
  split_ifs with h <;> simp [List.filter, h, TradeRec.isSell, TradeRec.code]

/-- Balance property of every ledger prefix: sells never exceed buys and
buys never exceed sells by more than one, per instrument. -/
def ledgerBalanced (tr : List TradeRec) : Prop :=
  ∀ (k code : ℕ), nSells (tr.take k) code ≤ nBuys (tr.take k) code ∧
    nBuys (tr.take k) code ≤ nSells (tr.take k) code + 1

theorem nBuys_nil (code : ℕ) : nBuys [] code = 0 := rfl

theorem nSells_nil (code : ℕ) : nSells [] code = 0 := rfl

theorem ledgerBalanced_nil : ledgerBalanced [] := by
  intro k code
  simp [nBuys, nSells]

theorem ledgerBalanced_full {tr : List TradeRec} (h : ledgerBalanced tr) (code : ℕ) :
    nSells tr code ≤ nBuys tr code ∧ nBuys tr code ≤ nSells tr code + 1 := by
  have := h tr.length code
  rwa [List.take_length] at this

theorem ledgerBalanced_append_buy {tr : List TradeRec} (h : ledgerBalanced tr)
    (d code : ℕ) (p : ℚ) (q : ℤ) (hfull : nBuys tr code = nSells tr code) :
    ledgerBalanced (tr ++ [.buyT d code p q]) := by
  intro k c
  rw [List.take_append_eq_append_take, nBuys_append, nSells_append]
  by_cases hk : k ≤ tr.length
  · rw [show k - tr.length = 0 by omega, List.take_zero, nBuys_nil, nSells_nil]
    have := h k c
    omega
  · rw [List.take_of_length_le (by omega), List.take_of_length_le (by simp; omega)]
    rw [nBuys_buy_single, nSells_buy_single]
    have hfl := ledgerBalanced_full h c
    by_cases hc : code = c
    · subst hc
      rw [if_pos rfl]
      omega
    · rw [if_neg hc]
      omega

theorem ledgerBalanced_append_sell {tr : List TradeRec} (h : ledgerBalanced tr)
    (d code : ℕ) (p pr prr : ℚ) (hd : ℤ)
    (hfull : nBuys tr code = nSells tr code + 1) :
    ledgerBalanced (tr ++ [.sellT d code p pr prr hd]) := by
  intro k c
  rw [List.take_append_eq_append_take, nBuys_append, nSells_append]
  by_cases hk : k ≤ tr.length
  · rw [show k - tr.length = 0 by omega, List.take_zero, nBuys_nil, nSells_nil]
    have := h k c
    omega
  · rw [List.take_of_length_le (by omega), List.take_of_length_le (by simp; omega)]
    rw [nBuys_sell_single, nSells_sell_single]
    have hfl := ledgerBalanced_full h c
    by_cases hc : code = c
    · subst hc
      rw [if_pos rfl]
      omega
    · rw [if_neg hc]
      omega



/-- Simulator invariant for the at-most-one-open-position property: the
position dictionary has no duplicate keys, a position is open for a code
exactly when its ledger has one more BUY than SELL, and every ledger prefix
is balanced. -/
def simInv (s : BTState) : Prop :=
  (keysOf s.positions).Nodup ∧
  (∀ code, (posLookup s.positions code).isSome
      ↔ nBuys s.trades code = nSells s.trades code + 1) ∧
  ledgerBalanced s.trades

theorem simInv_btBuy {s : BTState} (h : simInv s) {code : ℕ}
    (hnone : posLookup s.positions code = none) (price : ℚ) (date : ℕ) :
    simInv (btBuy s code price date) := by
  obtain ⟨hnd, hiff, hbal⟩ := h
  have hcount : nBuys s.trades code = nSells s.trades code := by
    have h1 := (hiff code)
    rw [hnone] at h1
    simp at h1
    have h2 := ledgerBalanced_full hbal code
    omega
  unfold btBuy
  dsimp only
  split_ifs with a b c
  · exact ⟨hnd, hiff, hbal⟩
  · exact ⟨hnd, hiff, hbal⟩
  · exact ⟨hnd, hiff, hbal⟩
  · rw [posSet_absent _ hnone]
    refine ⟨?_, ?_, ?_⟩
    · have hnk : code ∉ keysOf s.positions := posLookup_eq_none_iff.mp hnone
      have : keysOf (s.positions ++ [(code, ⟨buyShares price, price, date⟩)])
          = keysOf s.positions ++ [code] := by simp [keysOf]
      rw [this]
      rw [List.nodup_append]
      exact ⟨hnd, List.nodup_singleton _, by simpa using hnk⟩
    · intro c'
      rw [posLookup_append]
      by_cases hc : c' = code
      · subst hc
        rw [hnone]
        rw [nBuys_append, nSells_append, nBuys_buy_single, nSells_buy_single,
          if_pos rfl]
        simp [posLookup]
        omega
      · have hne : posLookup [(code, (⟨buyShares price, price, date⟩ : PosInfo))] c'
            = none := by
          rw [posLookup, if_neg (fun he => hc he.symm)]
          rfl
        rw [nBuys_append, nSells_append, nBuys_buy_single, nSells_buy_single,
          if_neg (fun he => hc he.symm)]
        cases hl : posLookup s.positions c' with
        | none =>
          have hthis := hiff c'
          rw [hl] at hthis
          simpa [hne] using hthis
        | some v =>
          have hthis := hiff c'
          rw [hl] at hthis
          simpa using hthis
    · exact ledgerBalanced_append_buy hbal date code price (buyShares price) hcount



theorem simInv_btSell {s : BTState} (h : simInv s) (code : ℕ) (price : ℚ) (date : ℕ) :
    simInv (btSell s code price date) := by
  obtain ⟨hnd, hiff, hbal⟩ := h
  unfold btSell
  cases hl : posLookup s.positions code with
  | none => exact ⟨hnd, hiff, hbal⟩
  | some pos =>
    have hcount : nBuys s.trades code = nSells s.trades code + 1 := by
      have h1 := hiff code
      rw [hl] at h1
      simpa using h1
    refine ⟨keysOf_posDel_nodup hnd, ?_, ?_⟩
    · intro c'
      rw [nBuys_append, nSells_append, nBuys_sell_single, nSells_sell_single]
      by_cases hc : c' = code
      · subst hc
        rw [posLookup_posDel_self hnd, if_pos rfl]
        have h2 := ledgerBalanced_full hbal c'
        simp
        omega
      · rw [posLookup_posDel_ne hc, if_neg (fun he => hc he.symm)]
        have hthis := hiff c'
        simpa using hthis
    · exact ledgerBalanced_append_sell hbal date code price
        ((pos.shares : ℚ) * price * (9987/10000)
          - (pos.shares : ℚ) * pos.cost * (10003/10000))
        ((price / pos.cost - 1) * 100) ((date : ℤ) - pos.buyDate) hcount

theorem simInv_sellPhase {s : BTState} (h : simInv s)
    (data : ℕ → ℕ → Option BarSig) (date : ℕ) (codes : List ℕ) :
    simInv (codes.foldl
      (fun st code =>
        match data code date with
        | some b => if b.sell then btSell st code b.close date else st
        | none => st) s) := by
  induction codes generalizing s with
  | nil => exact h
  | cons c t ih =>
    rw [List.foldl_cons]
    apply ih
    cases hd : data c date with
    | none => exact h
    | some b =>
      dsimp only
      split_ifs
      · exact simInv_btSell h c b.close date
      · exact h

theorem simInv_buyPhase {s : BTState} (h : simInv s)
    (data : ℕ → ℕ → Option BarSig) (date : ℕ) (codes : List ℕ) :
    simInv (codes.foldl
      (fun st code =>
        if (posLookup st.positions code).isNone then
          match data code date with
          | some b => if b.buy then btBuy st code b.close date else st
          | none => st
        else st) s) := by
  induction codes generalizing s with
  | nil => exact h
  | cons c t ih =>
    rw [List.foldl_cons]
    apply ih
    by_cases hn : (posLookup s.positions c).isNone
    · rw [if_pos hn]
      cases hd : data c date with
      | none => exact h
      | some b =>
        dsimp only
        split_ifs
        · exact simInv_btBuy h (Option.isNone_iff_eq_none.mp hn) b.close date
        · exact h
    · rw [if_neg hn]
      exact h

theorem simInv_stepDate {s : BTState} (h : simInv s)
    (data : ℕ → ℕ → Option BarSig) (univ : List ℕ) (date : ℕ) :
    simInv (stepDate data univ date s) := by
  unfold stepDate
  dsimp only
  exact simInv_buyPhase (simInv_sellPhase h data date _) data date univ

theorem simInv_runBacktest (data : ℕ → ℕ → Option BarSig) (univ : List ℕ)
    (dates : List ℕ) : simInv (runBacktest data univ dates) := by
  unfold runBacktest
  have hinit : simInv ⟨1000000, [], []⟩ := by
    refine ⟨by simp [keysOf], ?_, ledgerBalanced_nil⟩
    intro code
    simp [posLookup, nBuys_nil, nSells_nil]
  generalize hstart : (⟨1000000, [], []⟩ : BTState) = s0 at hinit
  clear hstart
  induction dates generalizing s0 with
  | nil => exact hinit
  | cons d t ih =>
    rw [List.foldl_cons]
    exact ih _ (simInv_stepDate hinit data univ d)



/-- Claim C1: in every simulator run the open-position dictionary never
holds two entries for one instrument, a position is open exactly when the
ledger shows one more BUY than SELL for that instrument, and every ledger
prefix satisfies sells <= buys <= sells + 1 per instrument - so a buy is
executed only when no position for that instrument is open, no matter how
often the raw buy-signal series fires. -/
theorem at_most_one_open_position (data : ℕ → ℕ → Option BarSig)
    (univ dates : List ℕ) :
    (keysOf (runBacktest data univ dates).positions).Nodup ∧
    (∀ code, (posLookup (runBacktest data univ dates).positions code).isSome
        ↔ nBuys (runBacktest data univ dates).trades code
            = nSells (runBacktest data univ dates).trades code + 1) ∧
    ∀ (k code : ℕ),
      nSells ((runBacktest data univ dates).trades.take k) code
          ≤ nBuys ((runBacktest data univ dates).trades.take k) code ∧
      nBuys ((runBacktest data univ dates).trades.take k) code
          ≤ nSells ((runBacktest data univ dates).trades.take k) code + 1 :=
  simInv_runBacktest data univ dates

/-- Within-ledger ordering property: no BUY entry ever precedes a SELL entry
carrying the same date. -/
def noBuyBeforeSellSameDate (tr : List TradeRec) : Prop :=
  tr.Pairwise fun a b => ¬(a.isBuy = true ∧ b.isSell = true ∧ a.date = b.date)

theorem btSell_trades (s : BTState) (code : ℕ) (price : ℚ) (date : ℕ) :
    ∃ L, (btSell s code price date).trades = s.trades ++ L
      ∧ ∀ t ∈ L, t.isSell = true ∧ t.date = date := by
  unfold btSell
  cases posLookup s.positions code with
  | none => exact ⟨[], by simp, by simp⟩
  | some pos =>
    refine ⟨[_], rfl, ?_⟩
    intro t ht
    rw [List.mem_singleton] at ht
    subst ht
    exact ⟨rfl, rfl⟩

theorem btBuy_trades (s : BTState) (code : ℕ) (price : ℚ) (date : ℕ) :
    ∃ L, (btBuy s code price date).trades = s.trades ++ L
      ∧ ∀ t ∈ L, t.isBuy = true ∧ t.date = date := by
  unfold btBuy
  dsimp only
  split_ifs
  · exact ⟨[], by simp, by simp⟩
  · exact ⟨[], by simp, by simp⟩
  · exact ⟨[], by simp, by simp⟩
  · refine ⟨[_], rfl, ?_⟩
    intro t ht
    rw [List.mem_singleton] at ht
    subst ht
    exact ⟨rfl, rfl⟩

theorem sellPhase_trades (data : ℕ → ℕ → Option BarSig) (date : ℕ)
    (codes : List ℕ) (s : BTState) :
    ∃ L, (codes.foldl
        (fun st code =>
          match data code date with
          | some b => if b.sell then btSell st code b.close date else st
          | none => st) s).trades = s.trades ++ L
      ∧ ∀ t ∈ L, t.isSell = true ∧ t.date = date := by
  induction codes generalizing s with
  | nil => exact ⟨[], by simp, by simp⟩
  | cons c t ih =>
    rw [List.foldl_cons]
    set s1 := (match data c date with
      | some b => if b.sell then btSell s c b.close date else s
      | none => s) with hs1
    have hstep : ∃ L1, s1.trades = s.trades ++ L1
        ∧ ∀ t ∈ L1, t.isSell = true ∧ t.date = date := by
      rw [hs1]
      cases data c date with
      | none => exact ⟨[], by simp, by simp⟩
      | some b =>
        dsimp only
        split_ifs
        · exact btSell_trades s c b.close date
        · exact ⟨[], by simp, by simp⟩
    obtain ⟨L1, hL1, hP1⟩ := hstep
    obtain ⟨L2, hL2, hP2⟩ := ih s1
    refine ⟨L1 ++ L2, ?_, ?_⟩
    · rw [hL2, hL1, List.append_assoc]
    · intro x hx
      rcases List.mem_append.mp hx with hx | hx
      · exact hP1 x hx
      · exact hP2 x hx

theorem buyPhase_trades (data : ℕ → ℕ → Option BarSig) (date : ℕ)
    (codes : List ℕ) (s : BTState) :
    ∃ L, (codes.foldl
        (fun st code =>
          if (posLookup st.positions code).isNone then
            match data code date with
            | some b => if b.buy then btBuy st code b.close date else st
            | none => st
          else st) s).trades = s.trades ++ L
      ∧ ∀ t ∈ L, t.isBuy = true ∧ t.date = date := by
  induction codes generalizing s with
  | nil => exact ⟨[], by simp, by simp⟩
  | cons c t ih =>
    rw [List.foldl_cons]
    set s1 := (if (posLookup s.positions c).isNone then
        match data c date with
        | some b => if b.buy then btBuy s c b.close date else s
        | none => s
      else s) with hs1
    have hstep : ∃ L1, s1.trades = s.trades ++ L1
        ∧ ∀ t ∈ L1, t.isBuy = true ∧ t.date = date := by
      rw [hs1]
      split_ifs
      · cases data c date with
        | none => exact ⟨[], by simp, by simp⟩
        | some b =>
          dsimp only
          split_ifs
          · exact btBuy_trades s c b.close date
          · exact ⟨[], by simp, by simp⟩
      · exact ⟨[], by simp, by simp⟩
    obtain ⟨L1, hL1, hP1⟩ := hstep
    obtain ⟨L2, hL2, hP2⟩ := ih s1
    refine ⟨L1 ++ L2, ?_, ?_⟩
    · rw [hL2, hL1, List.append_assoc]
    · intro x hx
      rcases List.mem_append.mp hx with hx | hx
      · exact hP1 x hx
      · exact hP2 x hx



theorem isBuy_of_not_isSell {t : TradeRec} (h : t.isSell = true) : t.isBuy = false := by
  cases t <;> simp_all [TradeRec.isBuy, TradeRec.isSell]

theorem isSell_of_isBuy {t : TradeRec} (h : t.isBuy = true) : t.isSell = false := by
  cases t <;> simp_all [TradeRec.isBuy, TradeRec.isSell]

theorem stepDate_K {s : BTState} {ds : List ℕ} (data : ℕ → ℕ → Option BarSig)
    (univ : List ℕ) {date : ℕ}
    (hmem : ∀ t ∈ s.trades, t.date ∈ ds)
    (hQ : noBuyBeforeSellSameDate s.trades) (hd : date ∉ ds) :
    (∀ t ∈ (stepDate data univ date s).trades, t.date ∈ ds ++ [date]) ∧
    noBuyBeforeSellSameDate (stepDate data univ date s).trades := by
  unfold stepDate
  dsimp only
  obtain ⟨L1, hL1, hP1⟩ := sellPhase_trades data date (s.positions.map Prod.fst) s
  set s1 := ((s.positions.map Prod.fst).foldl
    (fun st code =>
      match data code date with
      | some b => if b.sell then btSell st code b.close date else st
      | none => st) s) with hs1
  obtain ⟨L2, hL2, hP2⟩ := buyPhase_trades data date univ s1
  rw [hL2, hL1, List.append_assoc]
  constructor
  · intro t ht
    rcases List.mem_append.mp ht with ht | ht
    · exact List.mem_append.mpr (Or.inl (hmem t ht))
    · rcases List.mem_append.mp ht with ht | ht
      · exact List.mem_append.mpr (Or.inr (by simp [(hP1 t ht).2]))
      · exact List.mem_append.mpr (Or.inr (by simp [(hP2 t ht).2]))
  · unfold noBuyBeforeSellSameDate
    rw [List.pairwise_append]
    refine ⟨hQ, ?_, ?_⟩
    · rw [List.pairwise_append]
      refine ⟨?_, ?_, ?_⟩
      · refine List.pairwise_of_forall_mem_list ?_
        intro a ha b hb
        rintro ⟨hab, _, _⟩
        rw [isBuy_of_not_isSell (hP1 a ha).1] at hab
        exact Bool.false_ne_true hab
      · refine List.pairwise_of_forall_mem_list ?_
        intro a ha b hb
        rintro ⟨_, hbs, _⟩
        rw [isSell_of_isBuy (hP2 b hb).1] at hbs
        exact Bool.false_ne_true hbs
      · intro a ha b hb
        rintro ⟨hab, _, _⟩
        rw [isBuy_of_not_isSell (hP1 a ha).1] at hab
        exact Bool.false_ne_true hab
    · intro a ha b hb
      rintro ⟨_, _, hdates⟩
      rcases List.mem_append.mp hb with hb | hb
      · have hbd : b.date = date := (hP1 b hb).2
        have had : a.date ∈ ds := hmem a ha
        rw [hdates, hbd] at had
        exact hd had
      · have hbd : b.date = date := (hP2 b hb).2
        have had : a.date ∈ ds := hmem a ha
        rw [hdates, hbd] at had
        exact hd had



theorem foldl_dates_K (data : ℕ → ℕ → Option BarSig) (univ : List ℕ)
    (dates : List ℕ) :
    ∀ (s : BTState) (ds : List ℕ),
      (∀ t ∈ s.trades, t.date ∈ ds) →
      noBuyBeforeSellSameDate s.trades →
      dates.Nodup → (∀ d ∈ dates, d ∉ ds) →
      (∀ t ∈ (dates.foldl (fun s d => stepDate data univ d s) s).trades,
          t.date ∈ ds ++ dates) ∧
      noBuyBeforeSellSameDate
        (dates.foldl (fun s d => stepDate data univ d s) s).trades := by
  induction dates with
  | nil =>
    intro s ds hmem hQ _ _
    exact ⟨by simpa using hmem, hQ⟩
  | cons d rest ih =>
    intro s ds hmem hQ hnd hfresh
    rw [List.foldl_cons]
    have hstep := stepDate_K data univ hmem hQ (hfresh d (List.mem_cons_self _ _))
    have hrest := ih (stepDate data univ d s) (ds ++ [d]) hstep.1 hstep.2
      (List.Nodup.of_cons hnd)
      (fun d' hd' => by
        rw [List.mem_append]
        rintro (h | h)
        · exact hfresh d' (List.mem_cons_of_mem _ hd') h
        · rw [List.mem_singleton] at h
          subst h
          exact (List.nodup_cons.mp hnd).1 hd')
    refine ⟨?_, hrest.2⟩
    intro t ht
    have := hrest.1 t ht
    rwa [List.append_assoc] at this

/-- Claim C6: over distinct simulated dates, no BUY ledger entry ever
precedes a SELL ledger entry carrying the same date - sells are executed
before buys within each date. -/
theorem sells_precede_buys_within_date (data : ℕ → ℕ → Option BarSig)
    (univ dates : List ℕ) (h : dates.Nodup) :
    noBuyBeforeSellSameDate (runBacktest data univ dates).trades := by
  unfold runBacktest
  exact (foldl_dates_K data univ dates ⟨1000000, [], []⟩ [] (by simp)
    (by unfold noBuyBeforeSellSameDate; exact List.Pairwise.nil) h (by simp)).2

/-- Witness for claim C6 on a concrete two-date run. -/
theorem sells_precede_buys_witness :
    ([0, 1] : List ℕ).Nodup ∧
    noBuyBeforeSellSameDate
      (runBacktest
        (fun code date =>
          if code = 0 then
            if date = 0 then some ⟨10, true, false⟩
            else if date = 1 then some ⟨11, false, true⟩
            else none
          else none)
        [0] [0, 1]).trades :=
  ⟨by decide,
    sells_precede_buys_within_date _ [0] [0, 1] (by decide)⟩

end StockSpec
